import Mathlib

/-!
Verification development for the `rust-bitcoin-script` chunker
(`src/chunker.rs`).  The chunking engine partitions a structured
Bitcoin-Script program into size-bounded, conditionally balanced chunks.

The engine itself (`Chunker::find_next_chunk`, `Chunker::undo`,
`Chunker::find_chunks`, `Chunker::find_chunks_and_analyze_stack`) is
embedded below directly from `src/chunker.rs`.  The fragment type
`StructuredScript` and the stack analyzer live in `builder.rs` and
`analyzer.rs`, which are external collaborators of the core; their
narrow contract (length, unclosed-depth, leaf test, ordered blocks,
resolve-and-clone of call targets, flow-op content) is modelled from the
specification (spec sections 3, 4.1 and 6).

Rust `Vec`s used as stacks (`call_stack` of the chunker and of the undo
ledger) are represented as Lean lists whose head is the top of the
stack.  Rust `Vec::push`/`pop` become list cons / head-match, and
`Vec::extend(removed)` on the chunker stack becomes prepending the
cons-accumulated removal list.  Loops are written with an explicit fuel
parameter so that every definition is executable; running out of fuel
is a distinguished error that never occurs for sufficient fuel.
-/

namespace RBScript

/-- Modelled from the spec: a raw instruction.  The engine only ever
inspects whether an instruction is a conditional open (`OP_IF`,
`OP_NOTIF`) or close (`OP_ENDIF`); every other instruction is opaque
and carries only its encoded byte size.  The three conditional opcodes
each occupy one byte. -/
inductive Inst where
  | opIf : Inst
  | opNotIf : Inst
  | opEndIf : Inst
  | other (size : Nat) : Inst
deriving DecidableEq

/-- Byte size of one instruction: the conditional opcodes are one byte. -/
def Inst.size : Inst → Nat
  | .opIf => 1
  | .opNotIf => 1
  | .opEndIf => 1
  | .other n => n

/-- Whether the instruction is a conditional-open/close opcode
(`OP_IF`, `OP_NOTIF` or `OP_ENDIF`). -/
def Inst.isFlowOp : Inst → Bool
  | .opIf => true
  | .opNotIf => true
  | .opEndIf => true
  | .other _ => false

/-- Signed conditional-balance contribution of one instruction:
`+1` for an open, `-1` for a close, `0` otherwise. -/
def Inst.unclosed : Inst → Int
  | .opIf => 1
  | .opNotIf => 1
  | .opEndIf => -1
  | .other _ => 0

/-- Total byte length of a raw instruction sequence (a `ScriptBuf`). -/
def instsLen : List Inst → Nat
  | [] => 0
  | i :: r => i.size + instsLen r

/-- Net number of unclosed conditional opens in a raw instruction
sequence (opens minus closes). -/
def instsNu : List Inst → Int
  | [] => 0
  | i :: r => i.unclosed + instsNu r

/-- Whether a raw instruction sequence contains any conditional
open/close opcode. -/
def instsHasFlow : List Inst → Bool
  | [] => false
  | i :: r => i.isFlowOp || instsHasFlow r

mutual
/-- Modelled from the spec: a `StructuredScript` fragment is either a
leaf holding a raw instruction sequence, or a composite holding an
ordered list of blocks.  A call block's named target is looked up in
the fragment's local script map and cloned on use; since fragments are
immutable values, the embedding stores the resolved target directly in
the call block. -/
inductive SS where
  | buf (insts : List Inst) : SS
  | node (blocks : List SBlock) : SS

/-- Modelled from the spec: a block of a composite fragment is a call
(reference to a named sub-fragment, stored resolved) or an inline
instruction segment. -/
inductive SBlock where
  | call (target : SS) : SBlock
  | script (insts : List Inst) : SBlock
end

mutual
/-- Instruction stream of a fragment: leaf instructions, or the
concatenation of the streams of all blocks in order. -/
def SS.insts : SS → List Inst
  | .buf i => i
  | .node bs => blocksInsts bs

/-- Instruction stream of a block list, in order. -/
def blocksInsts : List SBlock → List Inst
  | [] => []
  | b :: r => SBlock.insts b ++ blocksInsts r

/-- Instruction stream of one block. -/
def SBlock.insts : SBlock → List Inst
  | .call t => SS.insts t
  | .script s => s
end

/-- Modelled from the spec: `StructuredScript::len`, the total byte
size of the fragment's instruction stream. -/
def SS.len (s : SS) : Nat := instsLen s.insts

/-- Modelled from the spec: `StructuredScript::num_unclosed_ifs`, the
signed net count of conditional opens minus closes in the fragment. -/
def SS.nu (s : SS) : Int := instsNu s.insts

/-- Modelled from the spec: `StructuredScript::contains_flow_op`,
whether the fragment contains any `OP_IF`/`OP_NOTIF`/`OP_ENDIF`. -/
def SS.containsFlowOp (s : SS) : Bool := instsHasFlow s.insts

/-- Modelled from the spec: `StructuredScript::is_script_buf`, true
exactly for a raw-instruction leaf with no calls. -/
def SS.isScriptBuf : SS → Bool
  | .buf _ => true
  | .node _ => false

/-- Whether a block is a call block (used for the `contains_call`
flag during expansion). -/
def SBlock.isCall : SBlock → Bool
  | .call _ => true
  | .script _ => false

/-- Splitting of a raw instruction sequence at every conditional
open/close opcode, as performed by `Chunker::undo` on a
`Block::Script`: the accumulated segment before each conditional is
emitted (even when empty), then the conditional alone, and a trailing
non-empty segment is emitted at the end.  Pieces are returned in
stream order. -/
def splitAux (tmp : List Inst) : List Inst → List (List Inst)
  | [] => if tmp.isEmpty then [] else [tmp]
  | i :: rest =>
    if i.isFlowOp then tmp :: [i] :: splitAux [] rest
    else splitAux (tmp ++ [i]) rest

/-- The fragments obtained by splitting an inline segment at every
conditional opcode, each wrapped as a fresh leaf
(`StructuredScript::new("").push_script(...)`), in stream order. -/
def splitPieces (insts : List Inst) : List SS :=
  (splitAux [] insts).map SS.buf

/-- One-level decomposition of a block list as performed by
`Chunker::undo`: a call block is replaced by its resolved target, an
inline segment is split at every conditional opcode.  Pieces are in
stream order; the caller pushes them onto the ledger stack so that the
last piece ends up on top. -/
def decomposeBlocks : List SBlock → List SS
  | [] => []
  | .call t :: r => t :: decomposeBlocks r
  | .script s :: r => splitPieces s ++ decomposeBlocks r

/-- One-level decomposition of a fragment inside `Chunker::undo`
(the non-leaf, non-single-instruction case); a leaf is treated as its
single inline segment. -/
def decomposeSS : SS → List SS
  | .buf i => splitPieces i
  | .node bs => decomposeBlocks bs

/-- One-level expansion of a block list as performed by
`Chunker::find_next_chunk`: a call block is resolved to its target
fragment (cloned), an inline segment becomes a fresh wrapping leaf.
The result is in stream order; the source pushes the blocks in reverse
order onto the traversal stack, so popping yields exactly this order. -/
def expandBlocks : List SBlock → List SS
  | [] => []
  | .call t :: r => t :: expandBlocks r
  | .script s :: r => .buf s :: expandBlocks r

/-- `ChunkStats` from `src/chunker.rs`: per-chunk stack-usage profile
published for the downstream linker. -/
structure ChunkStats where
  stackInputSize : Nat
  stackOutputSize : Nat
  altstackInputSize : Nat
  altstackOutputSize : Nat
deriving DecidableEq

/-- `Chunk` from `src/chunker.rs`: an ordered fragment sequence, its
accumulated size, and an optional stack profile attached after
analysis. -/
structure Chunk where
  scripts : List SS
  size : Nat
  stats : Option ChunkStats

/-- `UndoInfo` from `src/chunker.rs`: the undo ledger.  `callStack`
holds the provisionally placed fragments with the most recent one at
the head (the Rust `Vec`'s push end); `size` and `numUnclosedIfs` are
the running totals over the ledger. -/
structure UndoInfo where
  callStack : List SS
  size : Nat
  numUnclosedIfs : Int

/-- `UndoInfo::new`. -/
def UndoInfo.initial : UndoInfo := ⟨[], 0, 0⟩

/-- `UndoInfo::update`: push a fragment into the ledger, accumulating
its length and unclosed-depth contribution. -/
def UndoInfo.update (u : UndoInfo) (b : SS) : UndoInfo :=
  ⟨b :: u.callStack, u.size + b.len, u.numUnclosedIfs + b.nu⟩

/-- Modelled from the spec: the result record of the external stack
analyzer (`analyzer.rs`), consumed by
`Chunker::find_chunks_and_analyze_stack`. -/
structure StackStatus where
  deepestStackAccessed : Int
  stackChanged : Int
  deepestAltstackAccessed : Int
  altstackChanged : Int

/-- Fatal failure modes of the engine.  Each constructor corresponds
to one panic site in `src/chunker.rs`, except `fuelOut`, which marks
exhaustion of the explicit fuel of the embedding's loops. -/
inductive Err where
  | fuelOut : Err
  | tooManyEndifs : Err
  | noChunkableBufs : Err
  | unbalancedLedger (n : Int) : Err
  | zeroSizeChunk : Err
deriving DecidableEq

/-- The loop of `Chunker::undo`: pop the most recent ledger entry; a
fragment with no conditional content is removed outright, a
single-instruction leaf carrying conditional content is removed and
its contribution subtracted from the running count (stopping at zero),
and anything else is decomposed one level back onto the ledger.
Removed fragments are cons-accumulated in `acc` (so `acc` lists them
in stream order, ready to be prepended to the traversal stack), and
their total length in `rlen`.  Returns the remaining ledger, the
removal accumulator, and the removed length. -/
def undoLoopF : Nat → List SS → Int → List SS → Nat →
    Except Err (List SS × List SS × Nat)
  | 0, _, _, _, _ => .error .fuelOut
  | _ + 1, [], count, _, _ => .error (.unbalancedLedger count)
  | fuel + 1, b :: rest, count, acc, rlen =>
    if b.containsFlowOp then
      if b.isScriptBuf ∧ b.len = 1 then
        if count - b.nu = 0 then .ok (rest, b :: acc, rlen + b.len)
        else undoLoopF fuel rest (count - b.nu) (b :: acc) (rlen + b.len)
      else undoLoopF fuel ((decomposeSS b).reverse ++ rest) count acc rlen
    else undoLoopF fuel rest count (b :: acc) (rlen + b.len)

/-- `Chunker::undo`: if the ledger's running count is already zero the
ledger is dropped and nothing is removed; otherwise the tail of the
ledger is peeled until the count reaches zero.  Returns the remaining
ledger (whose reverse joins the chunk), the fragments to prepend to
the traversal stack, and the total removed length. -/
def undoF (fuel : Nat) (u : UndoInfo) : Except Err (List SS × List SS × Nat) :=
  if u.numUnclosedIfs = 0 then .ok ([], [], 0)
  else undoLoopF fuel u.callStack u.numUnclosedIfs [] 0

/-- The expansion-depth budget of `Chunker::find_next_chunk`. -/
def maxDepth : Nat := 8

/-- The mutable state of one `Chunker::find_next_chunk` run: the
traversal stack (head = top), the committed chunk fragments in order,
the accumulated chunk length, the undo ledger, and the expansion-depth
counter. -/
structure PackState where
  stack : List SS
  chunkScripts : List SS
  chunkLen : Nat
  uinfo : UndoInfo
  depth : Nat

/-- Outcome of one iteration of the packing loop: continue with a new
state, leave the loop (finalize with the current state; the popped
fragment, when any, has been pushed back), or abort fatally. -/
inductive PackOut where
  | next (ps : PackState) : PackOut
  | exit : PackOut
  | fail (e : Err) : PackOut

/-- One iteration of the loop of `Chunker::find_next_chunk`: pop the
next fragment, assert that the cumulative conditional balance stays
nonnegative, then either commit it (into the chunk when the balance
closes, into the undo ledger otherwise), expand it one level when it
does not fit and the chunk still has room within the depth budget
(pushing an indivisible leaf back and stopping instead), or push it
back and stop. -/
def packStep (target : Nat) : PackState → PackOut
  | ⟨[], _, _, _, _⟩ => .exit
  | ⟨b :: rest, cs, clen, u, depth⟩ =>
    if u.numUnclosedIfs + b.nu < 0 then .fail .tooManyEndifs
    else if clen + b.len ≤ target then
      if u.numUnclosedIfs + b.nu = 0 then
        .next ⟨rest, cs ++ u.callStack.reverse ++ [b],
               clen + b.len, UndoInfo.initial, 0⟩
      else
        .next ⟨rest, cs, clen + b.len, u.update b, 0⟩
    else if clen < target ∧ depth ≤ maxDepth then
      match b with
      | .buf _ => .exit
      | .node bs =>
        if bs.any SBlock.isCall ∨ depth ≤ maxDepth then
          .next ⟨expandBlocks bs ++ rest, cs, clen, u, depth + 1⟩
        else .fail .noChunkableBufs
    else .exit

/-- The packing loop of `Chunker::find_next_chunk`, iterated with
explicit fuel. -/
def findLoopF : Nat → Nat → PackState → Except Err PackState
  | 0, _, _ => .error .fuelOut
  | fuel + 1, target, ps =>
    match packStep target ps with
    | .fail e => .error e
    | .exit => .ok ps
    | .next ps' => findLoopF fuel target ps'

/-- `Chunker::find_next_chunk`: run the packing loop from an empty
chunk, then invoke the balancer on the final undo ledger; the
remaining ledger joins the chunk, the removed length is subtracted
from the chunk size, and the removed fragments are prepended to the
traversal stack.  Returns the produced chunk and the new traversal
stack. -/
def findNextChunkF (fuel : Nat) (target : Nat) (stack : List SS) :
    Except Err (Chunk × List SS) :=
  match findLoopF fuel target ⟨stack, [], 0, UndoInfo.initial, 0⟩ with
  | .error e => .error e
  | .ok ps =>
    match undoF fuel ps.uinfo with
    | .error e => .error e
    | .ok (rem, acc, rlen) =>
      .ok (⟨ps.chunkScripts ++ rem.reverse, ps.chunkLen - rlen, none⟩,
           acc ++ ps.stack)

/-- `Chunker` from `src/chunker.rs`: the configuration, the finished
chunks, and the engine-owned traversal stack (head = top). -/
structure Chunker where
  targetChunkSize : Nat
  tolerance : Nat
  chunks : List Chunk
  callStack : List SS

/-- `Chunker::new`. -/
def Chunker.new (topLevelScript : SS) (targetChunkSize tolerance : Nat) :
    Chunker :=
  ⟨targetChunkSize, tolerance, [], [topLevelScript]⟩

/-- `Chunker::find_chunks`: repeatedly extract one chunk until the
traversal stack is empty, failing fatally on a zero-size chunk.
Returns the list of chunk sizes and the final engine state (with the
produced chunks appended). -/
def findChunksF : Nat → Chunker → Except Err (List Nat × Chunker)
  | 0, _ => .error .fuelOut
  | fuel + 1, c =>
    match c.callStack with
    | [] => .ok ([], c)
    | _ =>
      match findNextChunkF (fuel + 1) c.targetChunkSize c.callStack with
      | .error e => .error e
      | .ok (chunk, stack') =>
        if chunk.size = 0 then .error .zeroSizeChunk
        else
          match findChunksF fuel
            ⟨c.targetChunkSize, c.tolerance, c.chunks ++ [chunk], stack'⟩ with
          | .error e => .error e
          | .ok (sizes, c') => .ok (chunk.size :: sizes, c')

/-- The collection loop of `Chunker::find_chunks_and_analyze_stack`:
extract chunks into a local list until the traversal stack is empty,
with no zero-size check.  Returns the chunks and the final stack. -/
def collectLoopF : Nat → Nat → List SS → Except Err (List Chunk × List SS)
  | 0, _, _ => .error .fuelOut
  | fuel + 1, target, stack =>
    match stack with
    | [] => .ok ([], [])
    | _ =>
      match findNextChunkF (fuel + 1) target stack with
      | .error e => .error e
      | .ok (chunk, stack') =>
        match collectLoopF fuel target stack' with
        | .error e => .error e
        | .ok (rest, stackFinal) => .ok (chunk :: rest, stackFinal)

/-- The cast `as usize` applied by `src/chunker.rs` to the signed
stack deltas: a wrapping conversion modulo `2 ^ 64`. -/
def asUsize (x : Int) : Nat := (x % (2 ^ 64 : Int)).toNat

/-- Attach the derived stack profile to one chunk, as computed in
`Chunker::find_chunks_and_analyze_stack` from the analyzer result. -/
def attachStats (analyze : List SS → StackStatus) (ch : Chunk) : Chunk :=
  let status := analyze ch.scripts
  ⟨ch.scripts, ch.size,
   some ⟨status.deepestStackAccessed.natAbs,
         asUsize (status.stackChanged - status.deepestStackAccessed),
         status.deepestAltstackAccessed.natAbs,
         asUsize (status.altstackChanged - status.deepestAltstackAccessed)⟩⟩

/-- `Chunker::find_chunks_and_analyze_stack`: collect all chunks (with
no zero-size check), then attach the stack profile produced by the
external analyzer to each chunk.  Returns the chunk list and the final
engine state. -/
def findChunksAndAnalyzeF (fuel : Nat) (analyze : List SS → StackStatus)
    (c : Chunker) : Except Err (List Chunk × Chunker) :=
  match collectLoopF fuel c.targetChunkSize c.callStack with
  | .error e => .error e
  | .ok (chunks, stackFinal) =>
    .ok (chunks.map (attachStats analyze),
         ⟨c.targetChunkSize, c.tolerance, c.chunks, stackFinal⟩)

/-! ### Derived notions used by the statements -/

/-- The instruction stream of a fragment list, in order. -/
def streamL : List SS → List Inst
  | [] => []
  | s :: r => s.insts ++ streamL r

/-- Sum of `num_unclosed_ifs` over a fragment list. -/
def sumNu : List SS → Int
  | [] => 0
  | s :: r => s.nu + sumNu r

/-- The instruction stream of a chunk: the concatenation of its
fragments' streams in order. -/
def chunkStream (ch : Chunk) : List Inst := streamL ch.scripts

/-- The instruction stream of a chunk list, in order. -/
def chunksStream : List Chunk → List Inst
  | [] => []
  | ch :: r => chunkStream ch ++ chunksStream r

/-- The total instruction stream represented by a packing state: the
committed chunk content, then the undo ledger (oldest first), then the
traversal stack (top first). -/
def psStream (ps : PackState) : List Inst :=
  streamL ps.chunkScripts ++ streamL ps.uinfo.callStack.reverse ++
    streamL ps.stack

/-- The undo-ledger invariant of the packing loop: a non-empty ledger
always has a nonzero running open count. -/
def LedgerInvU (u : UndoInfo) : Prop :=
  u.callStack ≠ [] → u.numUnclosedIfs ≠ 0

/-- `LedgerInvU` for the ledger of a packing state. -/
def LedgerInv (ps : PackState) : Prop := LedgerInvU ps.uinfo

/-- The full invariant of the packing loop: the ledger's running count
equals the sum over its entries, a non-empty ledger has nonzero count,
and the committed chunk content is balanced. -/
def GoodPS (ps : PackState) : Prop :=
  ps.uinfo.numUnclosedIfs = sumNu ps.uinfo.callStack ∧
  LedgerInv ps ∧ sumNu ps.chunkScripts = 0

/-- An instruction sequence whose wrapping leaf the balancer removes
directly rather than decomposing: either it carries no conditional
opcode, or its byte length is exactly one. -/
def removableB (insts : List Inst) : Bool :=
  !instsHasFlow insts || instsLen insts == 1

mutual
/-- Upper bound on the number of balancer iterations a single ledger
entry can generate (used as a fuel bound for `undoLoopF`). -/
def Mss : SS → Nat
  | .buf i => if removableB i then 1 else 1 + (splitAux [] i).length
  | .node bs => 1 + MBlocks bs

/-- `Mss` summed over a block list, with one extra unit per block. -/
def MBlocks : List SBlock → Nat
  | [] => 0
  | .call t :: r => 1 + Mss t + MBlocks r
  | .script s :: r => 1 + (splitAux [] s).length + MBlocks r
end

/-- `Mss` summed over a ledger. -/
def Mlist : List SS → Nat
  | [] => 0
  | s :: r => Mss s + Mlist r

/-- Whether an error is the decomposition-dead-end assertion failure
(`assert!(contains_call || depth <= max_depth)` in
`Chunker::find_next_chunk`). -/
def Err.isDeadEnd : Err → Bool
  | .noChunkableBufs => true
  | _ => false

/-- Whether one packing iteration failed with the
decomposition-dead-end assertion. -/
def PackOut.isDeadEnd : PackOut → Bool
  | .fail e => e.isDeadEnd
  | _ => false

/-- Whether a computation failed with the decomposition-dead-end
assertion. -/
def exceptIsDeadEnd {α : Type} : Except Err α → Bool
  | .error e => e.isDeadEnd
  | .ok _ => false

/-! ### Concrete programs used by scenario theorems and witnesses -/

/-- A leaf of 40 opaque bytes (Scenario A). -/
def leaf40 : SS := .buf [.other 40]

/-- Scenario A: three leaf fragments of sizes 40, 40, 40. -/
def progA : SS := .node [.call leaf40, .call leaf40, .call leaf40]

/-- The engine state after running Scenario A to completion. -/
def chunkerAFinal : Chunker :=
  ⟨90, 0, [⟨[leaf40, leaf40], 80, none⟩, ⟨[leaf40], 40, none⟩], []⟩

/-- A 40-byte leaf followed by a 100-byte leaf: the second leaf alone
exceeds a 90-byte budget. -/
def progOversized : SS :=
  .node [.call (.buf [.other 40]), .call (.buf [.other 100])]

/-- A 2-byte plain leaf. -/
def fragE : SS := .buf [.other 2]

/-- A single conditional-open leaf. -/
def fragA : SS := .buf [.opIf]

/-- A 5-byte plain leaf (no conditional content). -/
def fragB : SS := .buf [.other 5]

/-- A single conditional-close leaf. -/
def fragC : SS := .buf [.opEndIf]

/-- A program whose packing forces the balancer to remove the plain
leaf `fragB` from the first chunk: `fragE`, then an open, 5 plain
bytes, and a close that no longer fits. -/
def progRequeue : SS := .node [.call fragE, .call fragA, .call fragB, .call fragC]

/-- The engine state after chunking `progRequeue` with target size 8:
the removed plain leaf `fragB` reappears inside the second chunk. -/
def chunkerRequeueFinal : Chunker :=
  ⟨8, 0, [⟨[fragE], 2, none⟩, ⟨[fragA, fragB, fragC], 7, none⟩], []⟩

/-- A stack analyzer stub reporting no stack access (the analyzer is
an external collaborator; its value is irrelevant to the zero-size
check). -/
def zeroAnalyzer : List SS → StackStatus := fun _ => ⟨0, 0, 0, 0⟩

/-- A composite whose expansion yields no call blocks to descend into
(its single block is an inline 100-byte segment), and which does not
fit a 90-byte budget: the input shape the spec describes for the
decomposition dead end. -/
def progScriptsOnly : SS := .node [.script [.other 100]]

/-! ### Basic lemmas on instruction sequences and fragment lists -/

@[simp] theorem SS.insts_buf (i : List Inst) : (SS.buf i).insts = i := by
  simp [SS.insts]

@[simp] theorem SS.insts_node (bs : List SBlock) :
    (SS.node bs).insts = blocksInsts bs := by
  simp [SS.insts]

theorem Inst.size_of_flow (i : Inst) (h : i.isFlowOp = true) : i.size = 1 := by
  cases i <;> simp_all [Inst.isFlowOp, Inst.size]

theorem Inst.unclosed_of_not_flow (i : Inst) (h : i.isFlowOp = false) :
    i.unclosed = 0 := by
  cases i <;> simp_all [Inst.isFlowOp, Inst.unclosed]

theorem instsNu_append (a b : List Inst) :
    instsNu (a ++ b) = instsNu a + instsNu b := by
  induction a with
  | nil => simp [instsNu]
  | cons i r ih => simp [instsNu, ih]; ring

theorem instsHasFlow_append (a b : List Inst) :
    instsHasFlow (a ++ b) = (instsHasFlow a || instsHasFlow b) := by
  induction a with
  | nil => simp [instsHasFlow]
  | cons i r ih => simp [instsHasFlow, ih, Bool.or_assoc]

theorem instsNu_of_no_flow (l : List Inst) (h : instsHasFlow l = false) :
    instsNu l = 0 := by
  induction l with
  | nil => simp [instsNu]
  | cons i r ih =>
    simp only [instsHasFlow, Bool.or_eq_false_iff] at h
    simp [instsNu, ih h.2, Inst.unclosed_of_not_flow i h.1]

@[simp] theorem streamL_nil : streamL [] = [] := rfl

@[simp] theorem streamL_cons (s : SS) (r : List SS) :
    streamL (s :: r) = s.insts ++ streamL r := rfl

theorem streamL_append (a b : List SS) :
    streamL (a ++ b) = streamL a ++ streamL b := by
  induction a with
  | nil => simp
  | cons s r ih => simp [ih]

@[simp] theorem sumNu_nil : sumNu [] = 0 := rfl

@[simp] theorem sumNu_cons (s : SS) (r : List SS) :
    sumNu (s :: r) = s.nu + sumNu r := rfl

theorem sumNu_append (a b : List SS) :
    sumNu (a ++ b) = sumNu a + sumNu b := by
  induction a with
  | nil => simp
  | cons s r ih => simp [ih]; ring

theorem sumNu_reverse (a : List SS) : sumNu a.reverse = sumNu a := by
  induction a with
  | nil => simp
  | cons s r ih =>
    simp [List.reverse_cons, sumNu_append, ih]; ring

theorem sumNu_eq_instsNu_streamL (l : List SS) :
    sumNu l = instsNu (streamL l) := by
  induction l with
  | nil => simp [instsNu]
  | cons s r ih => simp [instsNu_append, ih, SS.nu]

/-! ### Splitting, decomposition and expansion preserve the stream -/

theorem splitAux_stream (l : List Inst) :
    ∀ tmp, streamL ((splitAux tmp l).map SS.buf) = tmp ++ l := by
  induction l with
  | nil =>
    intro tmp
    by_cases h : tmp.isEmpty
    · simp_all [splitAux, List.isEmpty_iff]
    · simp_all [splitAux]
  | cons i r ih =>
    intro tmp
    by_cases h : i.isFlowOp
    · simp [splitAux, h, ih []]
    · simp only [splitAux, h, Bool.false_eq_true, if_false, ih (tmp ++ [i])]
      simp

theorem splitPieces_stream (l : List Inst) : streamL (splitPieces l) = l := by
  simpa using splitAux_stream l []

theorem decomposeBlocks_stream (bs : List SBlock) :
    streamL (decomposeBlocks bs) = blocksInsts bs := by
  induction bs with
  | nil => simp [decomposeBlocks, blocksInsts]
  | cons b r ih =>
    cases b with
    | call t => simp [decomposeBlocks, blocksInsts, ih, SBlock.insts]
    | script s =>
      simp [decomposeBlocks, blocksInsts, streamL_append, ih,
        splitPieces_stream, SBlock.insts]

theorem decomposeSS_stream (s : SS) : streamL (decomposeSS s) = s.insts := by
  cases s with
  | buf i => simp [decomposeSS, splitPieces_stream]
  | node bs => simp [decomposeSS, decomposeBlocks_stream]

theorem decomposeSS_nu (s : SS) : sumNu (decomposeSS s) = s.nu := by
  rw [sumNu_eq_instsNu_streamL, decomposeSS_stream, SS.nu]

theorem expandBlocks_stream (bs : List SBlock) :
    streamL (expandBlocks bs) = blocksInsts bs := by
  induction bs with
  | nil => simp [expandBlocks, blocksInsts]
  | cons b r ih =>
    cases b with
    | call t => simp [expandBlocks, blocksInsts, ih, SBlock.insts]
    | script s => simp [expandBlocks, blocksInsts, ih, SBlock.insts]

/-! ### The balancer's iteration bound -/

theorem Mss_pos (s : SS) : 1 ≤ Mss s := by
  cases s with
  | buf i =>
    rw [Mss]
    split <;> omega
  | node bs => rw [Mss]; omega

@[simp] theorem Mlist_nil : Mlist [] = 0 := rfl

@[simp] theorem Mlist_cons (s : SS) (r : List SS) :
    Mlist (s :: r) = Mss s + Mlist r := rfl

theorem Mlist_append (a b : List SS) :
    Mlist (a ++ b) = Mlist a + Mlist b := by
  induction a with
  | nil => simp
  | cons s r ih => simp [ih]; omega

theorem Mlist_reverse (a : List SS) : Mlist a.reverse = Mlist a := by
  induction a with
  | nil => simp
  | cons s r ih => simp [List.reverse_cons, Mlist_append, ih]; omega

theorem splitAux_removable (l : List Inst) :
    ∀ tmp, instsHasFlow tmp = false →
      ∀ p ∈ splitAux tmp l, removableB p = true := by
  induction l with
  | nil =>
    intro tmp htmp p hp
    rw [splitAux] at hp
    split at hp
    · simp at hp
    · simp only [List.mem_singleton] at hp
      subst hp
      simp [removableB, htmp]
  | cons i r ih =>
    intro tmp htmp p hp
    by_cases hf : i.isFlowOp
    · rw [splitAux, if_pos hf] at hp
      rcases List.mem_cons.mp hp with h1 | hp'
      · subst h1; simp [removableB, htmp]
      · rcases List.mem_cons.mp hp' with h2 | hp''
        · subst h2
          have : instsLen [i] = 1 := by
            simp [instsLen, Inst.size_of_flow i hf]
          simp [removableB, this]
        · exact ih [] rfl p hp''
    · rw [splitAux] at hp
      simp only [hf, Bool.false_eq_true, if_false] at hp
      exact ih (tmp ++ [i])
        (by simp [instsHasFlow_append, htmp, instsHasFlow, hf]) p hp

theorem Mlist_map_removable (ps : List (List Inst))
    (h : ∀ p ∈ ps, removableB p = true) :
    Mlist (ps.map SS.buf) = ps.length := by
  induction ps with
  | nil => simp
  | cons p r ih =>
    simp only [List.map_cons, Mlist_cons, List.length_cons]
    rw [Mss, if_pos (h p (List.mem_cons_self p r)),
      ih (fun q hq => h q (List.mem_cons_of_mem p hq))]
    omega

theorem Mlist_splitPieces (l : List Inst) :
    Mlist (splitPieces l) = (splitAux [] l).length :=
  Mlist_map_removable _ (splitAux_removable l [] rfl)

theorem Mlist_decomposeBlocks_le (bs : List SBlock) :
    Mlist (decomposeBlocks bs) ≤ MBlocks bs := by
  induction bs with
  | nil => simp [decomposeBlocks, MBlocks]
  | cons b r ih =>
    cases b with
    | call t =>
      rw [decomposeBlocks, MBlocks]
      simp only [Mlist_cons]
      omega
    | script s =>
      rw [decomposeBlocks, MBlocks, Mlist_append, Mlist_splitPieces]
      omega

theorem Mlist_decomposeSS_lt (s : SS) (h1 : s.containsFlowOp = true)
    (h2 : ¬(s.isScriptBuf = true ∧ s.len = 1)) :
    Mlist (decomposeSS s) < Mss s := by
  cases s with
  | buf i =>
    have hflow : instsHasFlow i = true := by
      simpa [SS.containsFlowOp] using h1
    have hlen : instsLen i ≠ 1 := by
      intro hl
      exact h2 ⟨rfl, by simpa [SS.len] using hl⟩
    have hrem : removableB i = false := by
      simp [removableB, hflow, hlen]
    rw [decomposeSS, Mlist_splitPieces, Mss, if_neg (by simp [hrem])]
    omega
  | node bs =>
    rw [decomposeSS, Mss]
    have := Mlist_decomposeBlocks_le bs
    omega

/-! ### Inversion of one packing iteration -/

theorem packStep_next_inv {target : Nat} {ps ps' : PackState}
    (h : packStep target ps = PackOut.next ps') :
    (∃ b rest, ps.stack = b :: rest ∧
      0 ≤ ps.uinfo.numUnclosedIfs + b.nu ∧
      ps.chunkLen + b.len ≤ target ∧
      ((ps.uinfo.numUnclosedIfs + b.nu = 0 ∧
        ps' = ⟨rest, ps.chunkScripts ++ ps.uinfo.callStack.reverse ++ [b],
               ps.chunkLen + b.len, UndoInfo.initial, 0⟩) ∨
       (ps.uinfo.numUnclosedIfs + b.nu ≠ 0 ∧
        ps' = ⟨rest, ps.chunkScripts, ps.chunkLen + b.len,
               ps.uinfo.update b, 0⟩))) ∨
    (∃ bs rest, ps.stack = SS.node bs :: rest ∧
      0 ≤ ps.uinfo.numUnclosedIfs + (SS.node bs).nu ∧
      target < ps.chunkLen + (SS.node bs).len ∧
      ps.chunkLen < target ∧ ps.depth ≤ maxDepth ∧
      ps' = ⟨expandBlocks bs ++ rest, ps.chunkScripts, ps.chunkLen,
             ps.uinfo, ps.depth + 1⟩) := by
  obtain ⟨stack, cs, clen, u, d⟩ := ps
  dsimp only
  cases stack with
  | nil => exact absurd h (by simp [packStep])
  | cons b rest =>
    simp only [packStep] at h
    by_cases h1 : u.numUnclosedIfs + b.nu < 0
    · rw [if_pos h1] at h
      exact absurd h (by simp)
    · rw [if_neg h1] at h
      by_cases h2 : clen + b.len ≤ target
      · rw [if_pos h2] at h
        by_cases h3 : u.numUnclosedIfs + b.nu = 0
        · rw [if_pos h3] at h
          injection h with h'
          exact Or.inl ⟨b, rest, rfl, by omega, h2, Or.inl ⟨h3, h'.symm⟩⟩
        · rw [if_neg h3] at h
          injection h with h'
          exact Or.inl ⟨b, rest, rfl, by omega, h2, Or.inr ⟨h3, h'.symm⟩⟩
      · rw [if_neg h2] at h
        by_cases h4 : clen < target ∧ d ≤ maxDepth
        · rw [if_pos h4] at h
          cases b with
          | buf i => exact absurd h (by simp)
          | node bs =>
            dsimp only at h
            by_cases h5 : bs.any SBlock.isCall = true ∨ d ≤ maxDepth
            · rw [if_pos h5] at h
              injection h with h'
              exact Or.inr ⟨bs, rest, rfl, by omega, by omega, h4.1, h4.2,
                h'.symm⟩
            · rw [if_neg h5] at h
              exact absurd h (by simp)
        · rw [if_neg h4] at h
          exact absurd h (by simp)

/-! ### Properties of one packing iteration -/

theorem packStep_next_stream {target : Nat} {ps ps' : PackState}
    (h : packStep target ps = PackOut.next ps') : psStream ps' = psStream ps := by
  rcases packStep_next_inv h with
    ⟨b, rest, hs, _, _, ⟨_, hps⟩ | ⟨_, hps⟩⟩ |
    ⟨bs, rest, hs, _, _, _, _, hps⟩ <;>
    subst hps <;>
    simp [psStream, hs, streamL_append, UndoInfo.initial, UndoInfo.update,
      expandBlocks_stream]

theorem packStep_next_ledgerInv {target : Nat} {ps ps' : PackState}
    (h : packStep target ps = PackOut.next ps') (hInv : LedgerInv ps) :
    LedgerInv ps' := by
  rcases packStep_next_inv h with
    ⟨b, rest, hs, _, _, ⟨_, hps⟩ | ⟨hne, hps⟩⟩ |
    ⟨bs, rest, hs, _, _, _, _, hps⟩ <;> subst hps
  · intro hne
    exact absurd rfl hne
  · intro _
    simpa [UndoInfo.update] using hne
  · exact hInv

theorem packStep_next_good {target : Nat} {ps ps' : PackState}
    (h : packStep target ps = PackOut.next ps') (hg : GoodPS ps) :
    GoodPS ps' := by
  obtain ⟨g1, g2, g3⟩ := hg
  rcases packStep_next_inv h with
    ⟨b, rest, hs, _, _, ⟨h0, hps⟩ | ⟨hne, hps⟩⟩ |
    ⟨bs, rest, hs, _, _, _, _, hps⟩ <;> subst hps
  · refine ⟨rfl, fun hne => absurd rfl hne, ?_⟩
    simp only [sumNu_append, sumNu_reverse, sumNu_cons, sumNu_nil] at *
    omega
  · refine ⟨?_, fun _ => by simpa [UndoInfo.update] using hne, g3⟩
    simp [UndoInfo.update, g1]
    omega
  · exact ⟨g1, g2, g3⟩

theorem packStep_next_len {target : Nat} {ps ps' : PackState}
    (h : packStep target ps = PackOut.next ps')
    (hl : ps.chunkLen ≤ target) : ps'.chunkLen ≤ target := by
  rcases packStep_next_inv h with
    ⟨b, rest, hs, _, hfit, ⟨_, hps⟩ | ⟨_, hps⟩⟩ |
    ⟨bs, rest, hs, _, _, _, _, hps⟩ <;> subst hps <;> simpa

/-! ### Properties of the packing loop -/

theorem findLoopF_ok {fuel target : Nat} {ps ps' : PackState}
    (h : findLoopF fuel target ps = Except.ok ps') :
    psStream ps' = psStream ps ∧ (GoodPS ps → GoodPS ps') ∧
    (ps.chunkLen ≤ target → ps'.chunkLen ≤ target) := by
  induction fuel generalizing ps with
  | zero => exact absurd h (by simp [findLoopF])
  | succ fuel ih =>
    rw [findLoopF] at h
    cases hps : packStep target ps with
    | fail e => rw [hps] at h; exact absurd h (by simp)
    | exit =>
      rw [hps] at h
      injection h with h'
      subst h'
      exact ⟨rfl, id, id⟩
    | next ps'' =>
      rw [hps] at h
      obtain ⟨s1, s2, s3⟩ := ih h
      exact ⟨s1.trans (packStep_next_stream hps),
        fun hg => s2 (packStep_next_good hps hg),
        fun hl => s3 (packStep_next_len hps hl)⟩

/-! ### Properties of the balancer -/

theorem undoLoopF_ok_stream :
    ∀ (fuel : Nat) (ledger : List SS) (count : Int) (acc : List SS)
      (rlen : Nat) {rem acc' : List SS} {rlen' : Nat},
      undoLoopF fuel ledger count acc rlen = .ok (rem, acc', rlen') →
      streamL rem.reverse ++ streamL acc' =
        streamL ledger.reverse ++ streamL acc := by
  intro fuel
  induction fuel with
  | zero => intro ledger count acc rlen rem acc' rlen' h; exact absurd h (by simp [undoLoopF])
  | succ fuel ih =>
    intro ledger count acc rlen rem acc' rlen' h
    cases ledger with
    | nil => exact absurd h (by simp [undoLoopF])
    | cons b rest =>
      rw [undoLoopF] at h
      by_cases hf : b.containsFlowOp = true
      · rw [if_pos hf] at h
        by_cases hsb : b.isScriptBuf = true ∧ b.len = 1
        · rw [if_pos hsb] at h
          by_cases hz : count - b.nu = 0
          · rw [if_pos hz] at h
            cases h
            simp [streamL_append, List.append_assoc]
          · rw [if_neg hz] at h
            have := ih rest (count - b.nu) (b :: acc) (rlen + b.len) h
            rw [this]
            simp [streamL_append, List.append_assoc]
        · rw [if_neg hsb] at h
          have := ih ((decomposeSS b).reverse ++ rest) count acc rlen h
          rw [this]
          simp [streamL_append, List.reverse_append, List.reverse_reverse,
            decomposeSS_stream, List.append_assoc]
      · rw [if_neg hf] at h
        have := ih rest count (b :: acc) (rlen + b.len) h
        rw [this]
        simp [streamL_append, List.append_assoc]

theorem undoLoopF_ok_balance :
    ∀ (fuel : Nat) (ledger : List SS) (count : Int) (acc : List SS)
      (rlen : Nat) {rem acc' : List SS} {rlen' : Nat},
      count = sumNu ledger →
      undoLoopF fuel ledger count acc rlen = .ok (rem, acc', rlen') →
      sumNu rem = 0 := by
  intro fuel
  induction fuel with
  | zero =>
    intro ledger count acc rlen rem acc' rlen' _ h
    exact absurd h (by simp [undoLoopF])
  | succ fuel ih =>
    intro ledger count acc rlen rem acc' rlen' hsum h
    cases ledger with
    | nil => exact absurd h (by simp [undoLoopF])
    | cons b rest =>
      rw [undoLoopF] at h
      rw [sumNu_cons] at hsum
      by_cases hf : b.containsFlowOp = true
      · rw [if_pos hf] at h
        by_cases hsb : b.isScriptBuf = true ∧ b.len = 1
        · rw [if_pos hsb] at h
          by_cases hz : count - b.nu = 0
          · rw [if_pos hz] at h
            cases h
            omega
          · rw [if_neg hz] at h
            exact ih rest (count - b.nu) (b :: acc) (rlen + b.len)
              (by omega) h
        · rw [if_neg hsb] at h
          refine ih ((decomposeSS b).reverse ++ rest) count acc rlen ?_ h
          rw [sumNu_append, sumNu_reverse, decomposeSS_nu]
          omega
      · rw [if_neg hf] at h
        have hb : b.nu = 0 := by
          have : instsHasFlow b.insts = false := by
            simpa [SS.containsFlowOp] using hf
          simp [SS.nu, instsNu_of_no_flow _ this]
        exact ih rest count (b :: acc) (rlen + b.len) (by omega) h

theorem undoLoopF_total :
    ∀ (fuel : Nat) (ledger : List SS) (count : Int) (acc : List SS)
      (rlen : Nat), Mlist ledger < fuel → count ≠ 0 →
      (∃ rem acc' rlen',
        undoLoopF fuel ledger count acc rlen = .ok (rem, acc', rlen')) ∨
      (∃ n, undoLoopF fuel ledger count acc rlen =
          .error (Err.unbalancedLedger n) ∧ n ≠ 0) := by
  intro fuel
  induction fuel with
  | zero => intro ledger count acc rlen hM _; omega
  | succ fuel ih =>
    intro ledger count acc rlen hM hc
    cases ledger with
    | nil =>
      right
      exact ⟨count, by rw [undoLoopF], hc⟩
    | cons b rest =>
      rw [Mlist_cons] at hM
      have hpos := Mss_pos b
      rw [undoLoopF]
      by_cases hf : b.containsFlowOp = true
      · rw [if_pos hf]
        by_cases hsb : b.isScriptBuf = true ∧ b.len = 1
        · rw [if_pos hsb]
          by_cases hz : count - b.nu = 0
          · rw [if_pos hz]
            exact Or.inl ⟨rest, b :: acc, rlen + b.len, rfl⟩
          · rw [if_neg hz]
            exact ih rest (count - b.nu) (b :: acc) (rlen + b.len)
              (by omega) hz
        · rw [if_neg hsb]
          have hlt := Mlist_decomposeSS_lt b hf hsb
          refine ih ((decomposeSS b).reverse ++ rest) count acc rlen ?_ hc
          rw [Mlist_append, Mlist_reverse]
          omega
      · rw [if_neg hf]
        exact ih rest count (b :: acc) (rlen + b.len) (by omega) hc

theorem undoLoopF_err :
    ∀ (fuel : Nat) (ledger : List SS) (count : Int) (acc : List SS)
      (rlen : Nat) {e : Err},
      undoLoopF fuel ledger count acc rlen = .error e →
      e = .fuelOut ∨ ∃ n, e = .unbalancedLedger n := by
  intro fuel
  induction fuel with
  | zero =>
    intro ledger count acc rlen e h
    rw [undoLoopF] at h
    injection h with h'
    exact Or.inl h'.symm
  | succ fuel ih =>
    intro ledger count acc rlen e h
    cases ledger with
    | nil =>
      rw [undoLoopF] at h
      injection h with h'
      exact Or.inr ⟨count, h'.symm⟩
    | cons b rest =>
      rw [undoLoopF] at h
      by_cases hf : b.containsFlowOp = true
      · rw [if_pos hf] at h
        by_cases hsb : b.isScriptBuf = true ∧ b.len = 1
        · rw [if_pos hsb] at h
          by_cases hz : count - b.nu = 0
          · rw [if_pos hz] at h
            exact absurd h (by simp)
          · rw [if_neg hz] at h
            exact ih _ _ _ _ h
        · rw [if_neg hsb] at h
          exact ih _ _ _ _ h
      · rw [if_neg hf] at h
        exact ih _ _ _ _ h

theorem undoF_ok_stream {fuel : Nat} {u : UndoInfo} {rem acc : List SS}
    {rlen : Nat} (h0 : u.callStack = [] ∨ u.numUnclosedIfs ≠ 0)
    (h : undoF fuel u = .ok (rem, acc, rlen)) :
    streamL rem.reverse ++ streamL acc = streamL u.callStack.reverse := by
  rw [undoF] at h
  by_cases hz : u.numUnclosedIfs = 0
  · rw [if_pos hz] at h
    cases h
    have hcs : u.callStack = [] := h0.resolve_right (fun hne => hne hz)
    rw [hcs]
    simp
  · rw [if_neg hz] at h
    simpa using undoLoopF_ok_stream fuel u.callStack u.numUnclosedIfs [] 0 h

theorem undoF_ok_balance {fuel : Nat} {u : UndoInfo} {rem acc : List SS}
    {rlen : Nat} (hsum : u.numUnclosedIfs = sumNu u.callStack)
    (h : undoF fuel u = .ok (rem, acc, rlen)) : sumNu rem = 0 := by
  rw [undoF] at h
  by_cases hz : u.numUnclosedIfs = 0
  · rw [if_pos hz] at h
    cases h
    simp
  · rw [if_neg hz] at h
    exact undoLoopF_ok_balance fuel u.callStack u.numUnclosedIfs [] 0 hsum h

theorem undoF_err {fuel : Nat} {u : UndoInfo} {e : Err}
    (h : undoF fuel u = .error e) :
    e = .fuelOut ∨ ∃ n, e = .unbalancedLedger n := by
  rw [undoF] at h
  by_cases hz : u.numUnclosedIfs = 0
  · rw [if_pos hz] at h
    exact absurd h (by simp)
  · rw [if_neg hz] at h
    exact undoLoopF_err fuel u.callStack u.numUnclosedIfs [] 0 h

/-! ### Properties of one chunk extraction -/

theorem findNextChunkF_ok {fuel target : Nat} {stack stack' : List SS}
    {ch : Chunk} (h : findNextChunkF fuel target stack = .ok (ch, stack')) :
    streamL ch.scripts ++ streamL stack' = streamL stack ∧
    sumNu ch.scripts = 0 ∧ ch.size ≤ target := by
  rw [findNextChunkF] at h
  cases hl : findLoopF fuel target ⟨stack, [], 0, UndoInfo.initial, 0⟩ with
  | error e => rw [hl] at h; exact absurd h (by simp)
  | ok ps =>
    rw [hl] at h
    dsimp only at h
    obtain ⟨s1, s2, s3⟩ := findLoopF_ok hl
    have hg : GoodPS ps := by
      refine s2 ⟨by simp [UndoInfo.initial], ?_, by simp⟩
      intro hne
      exact absurd rfl hne
    cases hu : undoF fuel ps.uinfo with
    | error e => rw [hu] at h; exact absurd h (by simp)
    | ok t =>
      obtain ⟨rem, acc, rlen⟩ := t
      rw [hu] at h
      cases h
      have h0 : ps.uinfo.callStack = [] ∨ ps.uinfo.numUnclosedIfs ≠ 0 := by
        by_cases hcs : ps.uinfo.callStack = []
        · exact Or.inl hcs
        · exact Or.inr (hg.2.1 hcs)
      have hstr := undoF_ok_stream h0 hu
      have hbal := undoF_ok_balance hg.1 hu
      have hps : psStream ps = streamL stack := by
        rw [s1]
        simp [psStream, UndoInfo.initial]
      refine ⟨?_, ?_, ?_⟩
      · rw [streamL_append, streamL_append]
        calc streamL ps.chunkScripts ++ streamL rem.reverse ++
              (streamL acc ++ streamL ps.stack)
            = streamL ps.chunkScripts ++
              ((streamL rem.reverse ++ streamL acc) ++ streamL ps.stack) := by
              simp [List.append_assoc]
          _ = streamL ps.chunkScripts ++
              (streamL ps.uinfo.callStack.reverse ++ streamL ps.stack) := by
              rw [hstr]
          _ = psStream ps := by simp [psStream, List.append_assoc]
          _ = streamL stack := hps
      · rw [sumNu_append, sumNu_reverse, hbal, hg.2.2]
        simp
      · exact le_trans (Nat.sub_le _ _) (s3 (Nat.zero_le _))

theorem packStep_fail {target : Nat} {ps : PackState} {e : Err}
    (h : packStep target ps = PackOut.fail e) : e = .tooManyEndifs := by
  obtain ⟨stack, cs, clen, u, d⟩ := ps
  cases stack with
  | nil => exact absurd h (by simp [packStep])
  | cons b rest =>
    simp only [packStep] at h
    by_cases h1 : u.numUnclosedIfs + b.nu < 0
    · rw [if_pos h1] at h
      injection h with h'
      exact h'.symm
    · rw [if_neg h1] at h
      by_cases h2 : clen + b.len ≤ target
      · rw [if_pos h2] at h
        by_cases h3 : u.numUnclosedIfs + b.nu = 0
        · rw [if_pos h3] at h; exact absurd h (by simp)
        · rw [if_neg h3] at h; exact absurd h (by simp)
      · rw [if_neg h2] at h
        by_cases h4 : clen < target ∧ d ≤ maxDepth
        · rw [if_pos h4] at h
          cases b with
          | buf i => exact absurd h (by simp)
          | node bs =>
            dsimp only at h
            by_cases h5 : bs.any SBlock.isCall = true ∨ d ≤ maxDepth
            · rw [if_pos h5] at h; exact absurd h (by simp)
            · exact absurd (Or.inr h4.2) h5
        · rw [if_neg h4] at h; exact absurd h (by simp)

theorem findLoopF_err {fuel target : Nat} {ps : PackState} {e : Err}
    (h : findLoopF fuel target ps = .error e) :
    e = .fuelOut ∨ e = .tooManyEndifs := by
  induction fuel generalizing ps with
  | zero =>
    rw [findLoopF] at h
    injection h with h'
    exact Or.inl h'.symm
  | succ fuel ih =>
    rw [findLoopF] at h
    cases hps : packStep target ps with
    | fail e' =>
      rw [hps] at h
      injection h with h'
      subst h'
      exact Or.inr (packStep_fail hps)
    | exit => rw [hps] at h; exact absurd h (by simp)
    | next ps'' => rw [hps] at h; exact ih h

theorem findNextChunkF_err {fuel target : Nat} {stack : List SS} {e : Err}
    (h : findNextChunkF fuel target stack = .error e) :
    e = .fuelOut ∨ e = .tooManyEndifs ∨ ∃ n, e = .unbalancedLedger n := by
  rw [findNextChunkF] at h
  cases hl : findLoopF fuel target ⟨stack, [], 0, UndoInfo.initial, 0⟩ with
  | error e' =>
    rw [hl] at h
    injection h with h'
    subst h'
    rcases findLoopF_err hl with h1 | h1
    · exact Or.inl h1
    · exact Or.inr (Or.inl h1)
  | ok ps =>
    rw [hl] at h
    dsimp only at h
    cases hu : undoF fuel ps.uinfo with
    | error e' =>
      rw [hu] at h
      injection h with h'
      subst h'
      rcases undoF_err hu with h1 | h1
      · exact Or.inl h1
      · exact Or.inr (Or.inr h1)
    | ok t =>
      obtain ⟨rem, acc, rlen⟩ := t
      rw [hu] at h
      exact absurd h (by simp)

/-! ### Properties of the chunk-sequence driver -/

theorem chunksStream_append (a b : List Chunk) :
    chunksStream (a ++ b) = chunksStream a ++ chunksStream b := by
  induction a with
  | nil => simp [chunksStream]
  | cons ch r ih => simp [chunksStream, ih]

theorem findChunksF_props :
    ∀ (fuel : Nat) (c : Chunker) {sizes : List Nat} {c' : Chunker},
      findChunksF fuel c = .ok (sizes, c') →
      chunksStream c'.chunks = chunksStream c.chunks ++ streamL c.callStack ∧
      c'.targetChunkSize = c.targetChunkSize ∧
      (∀ ch ∈ c'.chunks, ch ∈ c.chunks ∨
        (sumNu ch.scripts = 0 ∧ ch.size ≤ c.targetChunkSize ∧ 0 < ch.size)) ∧
      (∀ s ∈ sizes, 0 < s) := by
  intro fuel
  induction fuel with
  | zero =>
    intro c sizes c' h
    exact absurd h (by simp [findChunksF])
  | succ fuel ih =>
    intro c sizes c' h
    rw [findChunksF] at h
    cases hcs : c.callStack with
    | nil =>
      rw [hcs] at h
      dsimp only at h
      cases h
      refine ⟨by simp, rfl, fun ch hch => Or.inl hch, by simp⟩
    | cons s0 rest0 =>
      rw [hcs] at h
      dsimp only at h
      cases hn : findNextChunkF (fuel + 1) c.targetChunkSize (s0 :: rest0) with
      | error e => rw [hn] at h; exact absurd h (by simp)
      | ok t =>
        obtain ⟨chunk, stack'⟩ := t
        rw [hn] at h
        dsimp only at h
        by_cases hz : chunk.size = 0
        · rw [if_pos hz] at h
          exact absurd h (by simp)
        · rw [if_neg hz] at h
          cases hr : findChunksF fuel
              ⟨c.targetChunkSize, c.tolerance, c.chunks ++ [chunk], stack'⟩ with
          | error e => rw [hr] at h; exact absurd h (by simp)
          | ok t' =>
            obtain ⟨sizes', c''⟩ := t'
            rw [hr] at h
            cases h
            obtain ⟨i1, i2, i3, i4⟩ := ih _ hr
            obtain ⟨n1, n2, n3⟩ := findNextChunkF_ok hn
            refine ⟨?_, i2, ?_, ?_⟩
            · rw [i1]
              dsimp only
              rw [chunksStream_append]
              simp only [chunksStream, chunkStream, List.append_nil]
              rw [List.append_assoc, n1]
            · intro ch hch
              rcases i3 ch hch with hmem | hprops
              · dsimp only at hmem
                rcases List.mem_append.mp hmem with hold | hnew
                · exact Or.inl hold
                · rw [List.mem_singleton] at hnew
                  subst hnew
                  exact Or.inr ⟨n2, n3, Nat.pos_of_ne_zero hz⟩
              · exact Or.inr hprops
            · intro s hs
              rcases List.mem_cons.mp hs with h1 | h1
              · subst h1
                exact Nat.pos_of_ne_zero hz
              · exact i4 s h1

/-! ### Claim theorems -/

/-- Claim C1: for every input program and target size on which chunking
completes without a fatal abort, concatenating the instruction streams
of all produced chunks, in order, reproduces the original program's
instruction stream exactly — including instructions that pass through
the undo ledger and are removed and requeued by the balancer. -/
theorem spec_C1 (P : SS) (target tol fuel : Nat) (sizes : List Nat)
    (c' : Chunker)
    (h : findChunksF fuel (Chunker.new P target tol) = .ok (sizes, c')) :
    chunksStream c'.chunks = P.insts := by
  obtain ⟨s1, _, _, _⟩ := findChunksF_props fuel _ h
  simpa [Chunker.new, chunksStream] using s1

/-- Witness for C1 at Scenario A. -/
theorem spec_C1_witness :
    findChunksF 6 (Chunker.new progA 90 0) = .ok ([80, 40], chunkerAFinal) ∧
    chunksStream chunkerAFinal.chunks = progA.insts :=
  ⟨rfl, spec_C1 progA 90 0 6 [80, 40] chunkerAFinal rfl⟩

/-- Claim C2: for every chunk produced by the engine, the sum of
`num_unclosed_ifs` over the chunk's fragments is exactly 0 (proved
here with no exception at all: even a degenerate chunk is balanced,
so in particular the claimed statement with its single-oversized-leaf
exception holds). -/
theorem spec_C2 (P : SS) (target tol fuel : Nat) (sizes : List Nat)
    (c' : Chunker)
    (h : findChunksF fuel (Chunker.new P target tol) = .ok (sizes, c')) :
    ∀ ch ∈ c'.chunks, sumNu ch.scripts = 0 := by
  obtain ⟨_, _, s3, _⟩ := findChunksF_props fuel _ h
  intro ch hch
  rcases s3 ch hch with hmem | hprops
  · simp [Chunker.new] at hmem
  · exact hprops.1

/-- Witness for C2 on a program with conditional content that passes
through the balancer. -/
theorem spec_C2_witness :
    findChunksF 8 (Chunker.new progRequeue 8 0) =
      .ok ([2, 7], chunkerRequeueFinal) ∧
    ∀ ch ∈ chunkerRequeueFinal.chunks, sumNu ch.scripts = 0 :=
  ⟨rfl, spec_C2 progRequeue 8 0 8 [2, 7] chunkerRequeueFinal rfl⟩

/-- Claim C3: every chunk produced by a completed run has size at most
`target_chunk_size` (proved with no exception: size only grows when the
fit test passes and the balancer only subtracts). -/
theorem spec_C3 (P : SS) (target tol fuel : Nat) (sizes : List Nat)
    (c' : Chunker)
    (h : findChunksF fuel (Chunker.new P target tol) = .ok (sizes, c')) :
    ∀ ch ∈ c'.chunks, ch.size ≤ target := by
  obtain ⟨_, _, s3, _⟩ := findChunksF_props fuel _ h
  intro ch hch
  rcases s3 ch hch with hmem | hprops
  · simp [Chunker.new] at hmem
  · exact hprops.2.1

/-- Witness for C3 at Scenario A. -/
theorem spec_C3_witness :
    findChunksF 6 (Chunker.new progA 90 0) = .ok ([80, 40], chunkerAFinal) ∧
    ∀ ch ∈ chunkerAFinal.chunks, ch.size ≤ 90 :=
  ⟨rfl, spec_C3 progA 90 0 6 [80, 40] chunkerAFinal rfl⟩

/-- Counterexample to C4: on a program whose second leaf (100 bytes)
alone exceeds the 90-byte budget, the run does not produce that leaf as
its own oversized chunk — it aborts fatally with the zero-size-chunk
diagnosis, and the round that encounters the oversized leaf alone
produces an empty chunk, leaving the leaf on the stack. -/
theorem spec_C4_cex :
    findChunksF 5 (Chunker.new progOversized 90 0) =
      .error Err.zeroSizeChunk ∧
    findNextChunkF 5 90 [SS.buf [Inst.other 100]] =
      .ok (⟨[], 0, none⟩, [SS.buf [Inst.other 100]]) :=
  ⟨rfl, rfl⟩

/-- Claim C4 as amended: when the next fragment is an indivisible leaf
whose length alone exceeds `target_chunk_size`, the engine pushes it
back unconsumed and finalizes the current chunk with what was committed
so far; on the next round that leaf yields a zero-size chunk, so
`find_chunks` aborts fatally instead of producing the leaf as its own
oversized chunk. -/
theorem spec_C4 :
    (∀ (target : Nat) (ps : PackState) (i : List Inst) (rest : List SS),
      ps.stack = SS.buf i :: rest →
      0 ≤ ps.uinfo.numUnclosedIfs + instsNu i →
      target < ps.chunkLen + instsLen i →
      ps.chunkLen < target → ps.depth ≤ maxDepth →
      packStep target ps = PackOut.exit) ∧
    (∀ (i : List Inst) (target tol fuel : Nat),
      target < instsLen i → 0 ≤ instsNu i →
      findChunksF (fuel + 1) (Chunker.new (SS.buf i) target tol) =
        .error Err.zeroSizeChunk) := by
  have hnu : ∀ i, (SS.buf i).nu = instsNu i := fun i => by simp [SS.nu]
  have hlen : ∀ i, (SS.buf i).len = instsLen i := fun i => by simp [SS.len]
  constructor
  · intro target ps i rest h1 h2 h3 h4 h5
    obtain ⟨stack, cs, clen, u, d⟩ := ps
    dsimp only at h1 h2 h3 h4 h5
    subst h1
    simp only [packStep, hnu, hlen]
    rw [if_neg (by omega), if_neg (by omega), if_pos ⟨h4, h5⟩]
  · intro i target tol fuel h1 h2
    have hstep : packStep target ⟨[SS.buf i], [], 0, UndoInfo.initial, 0⟩ =
        PackOut.exit := by
      simp only [packStep, hnu, hlen, UndoInfo.initial]
      rw [if_neg (by omega), if_neg (by omega)]
      by_cases hb : 0 < target ∧ (0 : Nat) ≤ maxDepth
      · rw [if_pos hb]
      · rw [if_neg hb]
    have hloop : findLoopF (fuel + 1) target
        ⟨[SS.buf i], [], 0, UndoInfo.initial, 0⟩ =
        .ok ⟨[SS.buf i], [], 0, UndoInfo.initial, 0⟩ := by
      rw [findLoopF, hstep]
    have hnext : findNextChunkF (fuel + 1) target [SS.buf i] =
        .ok (⟨[], 0, none⟩, [SS.buf i]) := by
      rw [findNextChunkF, hloop]
      rfl
    rw [findChunksF]
    dsimp only [Chunker.new]
    rw [hnext]
    rfl

/-- Witness for C4 as amended, at a 100-byte leaf against a 90-byte
budget. -/
theorem spec_C4_witness :
    packStep 90 ⟨[SS.buf [Inst.other 100]], [], 0, UndoInfo.initial, 0⟩ =
      PackOut.exit ∧
    findChunksF 1 (Chunker.new (SS.buf [Inst.other 100]) 90 0) =
      .error Err.zeroSizeChunk :=
  ⟨spec_C4.1 90 ⟨[SS.buf [Inst.other 100]], [], 0, UndoInfo.initial, 0⟩
      [Inst.other 100] [] rfl (by decide) (by decide) (by decide) (by decide),
   spec_C4.2 [Inst.other 100] 90 0 0 (by decide) (by decide)⟩

/-- Counterexample to C5: in the run on `progRequeue`, the plain
5-byte leaf `fragB` is removed from the first chunk by the balancer
and nevertheless reappears inside the second chunk; at the `undo`
level, the removal list handed back to the traversal stack contains
`fragB`. -/
theorem spec_C5_cex :
    findChunksF 8 (Chunker.new progRequeue 8 0) =
      .ok ([2, 7], chunkerRequeueFinal) ∧
    chunkerRequeueFinal.chunks.map Chunk.scripts =
      [[fragE], [fragA, fragB, fragC]] ∧
    undoF 3 ⟨[fragB, fragA], 6, 1⟩ = .ok ([], [fragA, fragB], 6) :=
  ⟨rfl, rfl, rfl⟩

/-- Claim C5 as amended: during backtracking every removed ledger
fragment — in particular every fragment with no conditional content —
is returned to the traversal stack rather than discarded: the chunk
remainder plus the returned fragments carry exactly the ledger's
instruction stream. -/
theorem spec_C5 (fuel : Nat) (u : UndoInfo) (rem acc : List SS) (rlen : Nat)
    (h0 : u.callStack = [] ∨ u.numUnclosedIfs ≠ 0)
    (h : undoF fuel u = .ok (rem, acc, rlen)) :
    streamL rem.reverse ++ streamL acc = streamL u.callStack.reverse :=
  undoF_ok_stream h0 h

/-- Witness for C5 as amended, on the ledger that holds an open
conditional followed by a plain 5-byte leaf. -/
theorem spec_C5_witness :
    streamL (([] : List SS)).reverse ++ streamL [fragA, fragB] =
      streamL ([fragB, fragA] : List SS).reverse :=
  spec_C5 3 ⟨[fragB, fragA], 6, 1⟩ [] [fragA, fragB] 6
    (Or.inr (by decide)) rfl

/-- Counterexample to C6: `find_chunks_and_analyze_stack` performs no
zero-size check — on an empty composite program it returns successfully
with a chunk of size 0 instead of failing fatally. -/
theorem spec_C6_cex :
    findChunksAndAnalyzeF 2 zeroAnalyzer (Chunker.new (SS.node []) 10 0) =
      .ok ([⟨[SS.node []], 0, some ⟨0, 0, 0, 0⟩⟩], ⟨10, 0, [], []⟩) :=
  rfl

/-- Claim C6 as amended: `find_chunks` fails fatally, returning no
partial result, whenever a produced chunk has zero size — every size it
returns is positive; the analyze driver performs no such check. -/
theorem spec_C6 (fuel : Nat) (c : Chunker) (sizes : List Nat) (c' : Chunker)
    (h : findChunksF fuel c = .ok (sizes, c')) : ∀ s ∈ sizes, 0 < s :=
  (findChunksF_props fuel c h).2.2.2

/-- Witness for C6 as amended at Scenario A. -/
theorem spec_C6_witness :
    findChunksF 6 (Chunker.new progA 90 0) = .ok ([80, 40], chunkerAFinal) ∧
    0 < 80 :=
  ⟨rfl, spec_C6 6 (Chunker.new progA 90 0) [80, 40] chunkerAFinal rfl 80
    (by decide)⟩

/-- Counterexample to C7: on the very input shape the claim describes —
an oversized composite whose expansion yields no call blocks to
descend into — the run never fails with the decomposition-dead-end
assertion; it aborts through the zero-size-chunk check of
`find_chunks` instead. -/
theorem spec_C7_cex :
    exceptIsDeadEnd (findChunksF 3 (Chunker.new progScriptsOnly 90 0)) =
      false ∧
    findChunksF 3 (Chunker.new progScriptsOnly 90 0) =
      .error Err.zeroSizeChunk :=
  ⟨rfl, rfl⟩

/-- Claim C7 as amended: the error branch of the assertion
`contains_call || depth <= max_depth` is unreachable for every input,
because the enclosing branch's guard already requires
`depth <= max_depth`; no packing iteration and no chunk extraction
ever fails with the decomposition-dead-end error. -/
theorem spec_C7 :
    (∀ (target : Nat) (ps : PackState),
      PackOut.isDeadEnd (packStep target ps) = false) ∧
    (∀ (fuel target : Nat) (stack : List SS),
      exceptIsDeadEnd (findNextChunkF fuel target stack) = false) := by
  constructor
  · intro target ps
    cases hr : packStep target ps with
    | next ps' => simp [PackOut.isDeadEnd]
    | exit => simp [PackOut.isDeadEnd]
    | fail e =>
      rw [packStep_fail hr]
      simp [PackOut.isDeadEnd, Err.isDeadEnd]
  · intro fuel target stack
    cases hr : findNextChunkF fuel target stack with
    | ok v => simp [exceptIsDeadEnd]
    | error e =>
      rcases findNextChunkF_err hr with h | h | ⟨n, h⟩ <;>
        subst h <;> simp [exceptIsDeadEnd, Err.isDeadEnd]

/-- Claim C8: given sufficient fuel the balancer always terminates,
and it fails fatally exactly when it exhausts the entire ledger before
the running count reaches zero (the unique failure, carrying a nonzero
residual count); whenever it succeeds and the ledger's count matched
its contents, the remaining ledger is fully balanced — the peeling
stopped at count zero. -/
theorem spec_C8 (u : UndoInfo) (fuel : Nat) (hM : Mlist u.callStack < fuel) :
    (∃ rem acc rlen, undoF fuel u = .ok (rem, acc, rlen) ∧
      (u.numUnclosedIfs = sumNu u.callStack → sumNu rem = 0)) ∨
    (∃ n, undoF fuel u = .error (Err.unbalancedLedger n) ∧ n ≠ 0) := by
  rw [undoF]
  by_cases hz : u.numUnclosedIfs = 0
  · rw [if_pos hz]
    exact Or.inl ⟨[], [], 0, rfl, fun _ => rfl⟩
  · rw [if_neg hz]
    rcases undoLoopF_total fuel u.callStack u.numUnclosedIfs [] 0 hM hz with
      ⟨rem, acc, rlen, hok⟩ | ⟨n, herr, hn⟩
    · exact Or.inl ⟨rem, acc, rlen, hok, fun hsum =>
        undoLoopF_ok_balance fuel u.callStack u.numUnclosedIfs [] 0 hsum hok⟩
    · exact Or.inr ⟨n, herr, hn⟩

/-- Witness for C8 on a one-entry ledger holding a single open
conditional. -/
theorem spec_C8_witness :
    (∃ rem acc rlen,
      undoF 5 (⟨[fragA], 1, 1⟩ : UndoInfo) = .ok (rem, acc, rlen) ∧
      ((⟨[fragA], 1, 1⟩ : UndoInfo).numUnclosedIfs =
          sumNu (⟨[fragA], 1, 1⟩ : UndoInfo).callStack → sumNu rem = 0)) ∨
    (∃ n, undoF 5 (⟨[fragA], 1, 1⟩ : UndoInfo) =
        .error (Err.unbalancedLedger n) ∧ n ≠ 0) :=
  spec_C8 ⟨[fragA], 1, 1⟩ 5 (by decide)

/-- Claim C9 (Scenario A): three leaf fragments of sizes 40, 40, 40
with target size 90 and no conditionals yield exactly two chunks, of
sizes 80 and 40, in that order. -/
theorem spec_C9 :
    findChunksF 6 (Chunker.new progA 90 0) = .ok ([80, 40], chunkerAFinal) ∧
    chunkerAFinal.chunks.map Chunk.size = [80, 40] ∧
    chunkerAFinal.chunks.length = 2 :=
  ⟨rfl, rfl, rfl⟩

/-- Claim C10: every packing iteration preserves the ledger invariant
that a non-empty undo ledger has nonzero running count — a fragment is
pushed into the ledger only when the running sum stays nonzero, and
the ledger is flushed whole when the sum reaches zero; consequently
the balancer's early return on a zero count can only ever discard an
empty ledger. -/
theorem spec_C10 :
    (∀ (target : Nat) (ps ps' : PackState), LedgerInv ps →
      packStep target ps = PackOut.next ps' → LedgerInv ps') ∧
    (∀ (fuel : Nat) (u : UndoInfo), LedgerInvU u → u.numUnclosedIfs = 0 →
      u.callStack = [] ∧ undoF fuel u = .ok ([], [], 0)) := by
  constructor
  · intro target ps ps' hInv h
    exact packStep_next_ledgerInv h hInv
  · intro fuel u hInv hz
    have hcs : u.callStack = [] := by
      by_contra hne
      exact hInv hne hz
    exact ⟨hcs, by rw [undoF, if_pos hz]⟩

/-- Witness for C10: one ledger push keeps the invariant, and the
early return on the empty zero-count ledger discards nothing. -/
theorem spec_C10_witness :
    LedgerInv ⟨[], [], 1, ⟨[fragA], 1, 1⟩, 0⟩ ∧
    ((⟨[], 0, 0⟩ : UndoInfo).callStack = [] ∧
      undoF 1 ⟨[], 0, 0⟩ = .ok ([], [], 0)) :=
  ⟨spec_C10.1 10 ⟨[fragA], [], 0, UndoInfo.initial, 0⟩
      ⟨[], [], 1, ⟨[fragA], 1, 1⟩, 0⟩ (fun h => absurd rfl h) rfl,
   spec_C10.2 1 ⟨[], 0, 0⟩ (fun h => absurd rfl h) rfl⟩

end RBScript
